import Mathlib

/-!
Verification of the spectral noise-reduction engine (NoiseReduction.cpp,
class EffectNoiseReduction).  The definitions below are a shallow embedding
of the source: floats are modelled as exact rationals, vectors as lists or
band-indexed functions, and the stateful per-frame loops as explicit state
passing.  Slot 0 of the history ring is the newest frame, slot
historyLen - 1 the outgoing (oldest) frame, as in the source.
-/

namespace NoiseReduction

/-- `enum DiscriminationMethod` from the source. -/
inductive DiscriminationMethod where
  | median
  | secondGreatest
  | oldMethod
deriving DecidableEq, Repr

/-- `enum WindowTypes` from the source. -/
inductive WindowTypes where
  | rectangularHann
  | hannRectangular
  | hannHann
  | blackmanHann
deriving DecidableEq, Repr

/-- The `minSteps` column of `windowTypesInfo`: 2, 2, 4, 4. -/
def minSteps : WindowTypes → ℕ
  | .rectangularHann => 2
  | .hannRectangular => 2
  | .hannHann => 4
  | .blackmanHann => 4

/-- The fields of `EffectNoiseReduction::Settings` used by `Validate` and by
the worker's derived quantities. -/
structure Settings where
  windowTypes : WindowTypes
  windowSizeChoice : ℕ
  stepsPerWindowChoice : ℕ
  method : DiscriminationMethod
deriving DecidableEq, Repr

/-- `Settings::WindowSize`: `1 << (3 + mWindowSizeChoice)`. -/
def Settings.windowSize (s : Settings) : ℕ := 2 ^ (3 + s.windowSizeChoice)

/-- `Settings::StepsPerWindow`: `1 << (1 + mStepsPerWindowChoice)`. -/
def Settings.stepsPerWindow (s : Settings) : ℕ := 2 ^ (1 + s.stepsPerWindowChoice)

/-- `EffectNoiseReduction::Settings::Validate`: three checks performed in
order, each showing a message box and returning `false` on failure. -/
def Settings.validate (s : Settings) : Bool :=
  if s.stepsPerWindow < minSteps s.windowTypes then false
  else if s.windowSize < s.stepsPerWindow then false
  else if s.method = DiscriminationMethod.median ∧ 4 < s.stepsPerWindow then false
  else true

/-- `minSignalTime = 0.05f`, used only by the old method. -/
def minSignalTime : ℚ := 1 / 20

/-- `mNWindowsToExamine` as computed in the `Worker` constructor:
`max(2, (int)(minSignalTime * sampleRate / mStepSize))` for the old method,
`1 + mStepsPerWindow` otherwise.  The C cast `(int)` truncates; the operand
is nonnegative here, so it is `Int.floor`. -/
def nWindowsToExamine (method : DiscriminationMethod) (stepsPerWindow stepSize : ℕ)
    (sampleRate : ℚ) : ℕ :=
  if method = DiscriminationMethod.oldMethod then
    max 2 (Int.toNat ⌊minSignalTime * sampleRate / (stepSize : ℚ)⌋)
  else
    1 + stepsPerWindow

/-- The minimum tracked by the old-method branch of `Classify`: start from
`mQueue[0]->mSpectrums[band]` and fold `std::min` over ring slots
`1 … nWindowsToExamine - 1`.  `powers` lists the band's power in each ring
slot, newest first. -/
def oldMinOf (powers : List ℚ) (nW : ℕ) : ℚ :=
  match powers with
  | [] => 0
  | p :: _ => ((powers.take nW).drop 1).foldl min p

/-- The top-two tracking step of the `DM_SECOND_GREATEST` branch:
`if (power >= greatest) second = greatest, greatest = power;
else if (power >= second) second = power;`. -/
def top2Step (pr : ℚ × ℚ) (p : ℚ) : ℚ × ℚ :=
  if pr.1 ≤ p then (p, pr.1)
  else if pr.2 ≤ p then (pr.1, p)
  else pr

/-- `second` after scanning the first `nW` ring slots, starting from
`greatest = 0.0, second = 0.0`. -/
def secondGreatestOf (powers : List ℚ) (nW : ℕ) : ℚ :=
  ((powers.take nW).foldl top2Step (0, 0)).2

/-- The top-three tracking step of the five-window `DM_MEDIAN` branch. -/
def top3Step (tr : ℚ × ℚ × ℚ) (p : ℚ) : ℚ × ℚ × ℚ :=
  if tr.1 ≤ p then (p, tr.1, tr.2.1)
  else if tr.2.1 ≤ p then (tr.1, p, tr.2.1)
  else if tr.2.2 ≤ p then (tr.1, tr.2.1, p)
  else tr

/-- `third` after scanning the first `nW` ring slots, starting from
`greatest = 0.0, second = 0.0, third = 0.0`. -/
def thirdGreatestOf (powers : List ℚ) (nW : ℕ) : ℚ :=
  ((powers.take nW).foldl top3Step (0, 0, 0)).2.2

/-- `EffectNoiseReduction::Worker::Classify` for one band.  `powers` is the
band's power in each ring slot (newest first), `noiseThreshold` and `mean`
are `statistics.mNoiseThreshold[band]` and `statistics.mMeans[band]`, and
`newSensitivity` is the member `mNewSensitivity` (the dialog value already
multiplied by `log 10`).  The `wxASSERT(false)` default branches return
`true` as the source does. -/
def classify (method : DiscriminationMethod) (nW : ℕ)
    (sensitivityFactor noiseThreshold newSensitivity mean : ℚ)
    (powers : List ℚ) : Bool :=
  match method with
  | .oldMethod => decide (oldMinOf powers nW ≤ sensitivityFactor * noiseThreshold)
  | .median =>
      if nW = 3 then decide (secondGreatestOf powers nW ≤ newSensitivity * mean)
      else if nW = 5 then decide (thirdGreatestOf powers nW ≤ newSensitivity * mean)
      else true
  | .secondGreatest => decide (secondGreatestOf powers nW ≤ newSensitivity * mean)

/-- Whether a call to `Classify` would reach one of its `wxASSERT(false)`
default branches: only the `DM_MEDIAN` branch with a window count other
than 3 or 5 can (the method `switch` is exhaustive over the enum). -/
def classifyHitsAssert (method : DiscriminationMethod) (nW : ℕ) : Bool :=
  match method with
  | .median => ¬(nW = 3 ∨ nW = 5)
  | _ => false

/-- Modelled from the spec (§4.5 Classifier, Old): the minimum of
`power[band]` taken over all `history_len` slots of the ring, for
comparison with the source's `Classify`. -/
def minOverHistory (histLen : ℕ) (powers : List ℚ) : ℚ :=
  match powers with
  | [] => 0
  | p :: _ => ((powers.take histLen).drop 1).foldl min p

/-- The factor applied to a spectrum bin in `ReduceNoise`'s gain-application
loop: `gain - 1` in `NRC_LEAVE_RESIDUE` mode ("subtract the gain we would
otherwise apply from 1, and negate that to flip the phase"), `gain`
otherwise. -/
def gainFactor : Bool → ℚ → ℚ
  | true, g => g - 1
  | false, g => g

/-- The contents of `mFFTBuffer` after the gain-application block of
`ReduceNoise`: position 0 holds `mRealFFTs[0] * f(mGains[0])` (DC),
position 1 holds `mImagFFTs[0] * f(mGains[last])` (Nyquist, stored as the
imaginary part of DC), and positions `2..2*spectrumSize-3` interleave the
scaled real and imaginary parts of bins `1..spectrumSize-2`.  `re`, `im`
and `gain` index the record's `mRealFFTs`, `mImagFFTs` and `mGains`. -/
def fftBufferAfterGain (residue : Bool) (re im gain : ℕ → ℚ) (spectrumSize : ℕ) :
    List ℚ :=
  re 0 * gainFactor residue (gain 0) ::
  im 0 * gainFactor residue (gain (spectrumSize - 1)) ::
  (List.range (spectrumSize - 2)).flatMap fun i =>
    [re (i + 1) * gainFactor residue (gain (i + 1)),
     im (i + 1) * gainFactor residue (gain (i + 1))]

/-- Every entry of the gain list is at least `a` (the invariant value is
`mNoiseAttenFactor`). -/
def GainLB (a : ℚ) (g : List ℚ) : Prop := ∀ x ∈ g, a ≤ x

/-- The ring gains after `StartNewTrack`: every slot's `mGains` is filled
with `mNoiseAttenFactor`. -/
def startNewTrackGains (histLen spectrumSize : ℕ) (a : ℚ) : List (List ℚ) :=
  List.replicate histLen (List.replicate spectrumSize a)

/-- The slot-0 gain prefill in `FillFirstHistoryWindow` (skipped in
`NRC_ISOLATE_NOISE` mode): fill with `mNoiseAttenFactor`. -/
def prefillGains (spectrumSize : ℕ) (a : ℚ) : List ℚ :=
  List.replicate spectrumSize a

/-- The center-slot gain assignment of `ReduceNoise` in the non-isolating
modes: bands below `mBinLow` or at/above `mBinHigh` are set to 1; bands in
between are set to 1 when not classified as noise and left unchanged
otherwise. -/
def raiseCenterGains (binLow binHigh : ℕ) (cls : ℕ → Bool) (g : List ℚ) : List ℚ :=
  (List.range g.length).map fun j =>
    if j < binLow then 1
    else if binHigh ≤ j then 1
    else if cls j then g.getD j 0 else 1

/-- The inner attack loop of `ReduceNoise` on one band, walking slots
`mCenter + 1 … mHistoryLen - 1`: raise each gain to
`max(mNoiseAttenFactor, previous slot's gain * mOneBlockAttack)` and stop
at the first slot already at least that high.  `prev` is the gain of the
previous (newer) slot, already updated. -/
def attackFrom (a atk : ℚ) : ℚ → List ℚ → List ℚ
  | _, [] => []
  | prev, g :: rest =>
      let m := max a (prev * atk)
      if g < m then m :: attackFrom a atk m rest
      else g :: rest

/-- The attack propagation applied to one band's gain column (indexed by
ring slot, newest first): slots `0 … center` are untouched, the walk starts
from the center slot's gain. -/
def attackBand (a atk : ℚ) (center : ℕ) (col : List ℚ) : List ℚ :=
  col.take (center + 1) ++ attackFrom a atk (col.getD center 0) (col.drop (center + 1))

/-- The one-step release of `ReduceNoise` on one band's gain column:
`mQueue[mCenter-1].mGains[band] = max(itself, max(mNoiseAttenFactor,
mQueue[mCenter].mGains[band] * mOneBlockRelease))`. -/
def releaseBand (a rel : ℚ) (center : ℕ) (col : List ℚ) : List ℚ :=
  col.set (center - 1) (max (col.getD (center - 1) 0) (max a (col.getD center 0 * rel)))

/-- The averaging core of `ApplyFreqSmoothing` (its loop over
`mFreqSmoothingScratch`), acting on the log-domain gains: the source takes
`log` of every gain, replaces entry `ii` by the arithmetic mean of entries
`max(0, ii-B) … min(S-1, ii+B)`, and applies `exp`.  Since `exp` and `log`
are strictly monotone and mutually inverse on the positive gains, a lower
bound on the gains corresponds exactly to a lower bound on these log-domain
values, and this rational core carries all of the arithmetic.  When
`mFreqSmoothingBins = 0` the source returns without touching the gains. -/
def applyFreqSmoothingLog (B S : ℕ) (g : List ℚ) : List ℚ :=
  if B = 0 then g
  else (List.range S).map fun ii =>
    let j0 := ii - B
    let j1 := min (S - 1) (ii + B)
    (((List.range' j0 (j1 + 1 - j0)).map fun j => g.getD j 0).sum) / ((j1 + 1 - j0 : ℕ) : ℚ)

/-- The center-slot gain assignment of `ReduceNoise` in `NRC_ISOLATE_NOISE`
mode: bands outside `[mBinLow, mBinHigh)` get 0, bands inside get 1 when
classified as noise and 0 otherwise. -/
def isolateCenterGains (binLow binHigh spectrumSize : ℕ) (cls : ℕ → Bool) : List ℚ :=
  (List.range spectrumSize).map fun j =>
    if j < binLow then 0
    else if binHigh ≤ j then 0
    else if cls j then 1 else 0

/-- Every entry of the gain list is exactly 0 or exactly 1. -/
def IsBinaryGains (g : List ℚ) : Prop := ∀ x ∈ g, x = 0 ∨ x = 1

/-- `RotateHistoryWindows`: the oldest record (back of the queue) is moved
to the front, its contents (in particular its gains) retained. -/
def rotateRing (ring : List (List ℚ)) : List (List ℚ) :=
  match ring.getLast? with
  | none => []
  | some last => last :: ring.dropLast

/-- One `ReduceNoise` call in isolate mode, viewed on the ring of gain
vectors: only the center slot's gains are written (classification outcomes
abstracted as `cls`); the prefill, attack, release and frequency-smoothing
paths are all skipped in this mode. -/
def isoFrame (center binLow binHigh spectrumSize : ℕ) (cls : ℕ → Bool)
    (ring : List (List ℚ)) : List (List ℚ) :=
  ring.set center (isolateCenterGains binLow binHigh spectrumSize cls)

/-- One full frame in isolate mode: the `ReduceNoise` center write followed
by `RotateHistoryWindows`. -/
def isoStep (center binLow binHigh spectrumSize : ℕ) (cls : ℕ → Bool)
    (ring : List (List ℚ)) : List (List ℚ) :=
  rotateRing (isoFrame center binLow binHigh spectrumSize cls ring)

/-- `n` frames in isolate mode; `clsSeq k` gives frame `k`'s classification
outcomes. -/
def isoRun (center binLow binHigh spectrumSize : ℕ) (clsSeq : ℕ → ℕ → Bool) :
    ℕ → List (List ℚ) → List (List ℚ)
  | 0, ring => ring
  | n + 1, ring =>
      isoStep center binLow binHigh spectrumSize (clsSeq n)
        (isoRun center binLow binHigh spectrumSize clsSeq n ring)

/-- `EffectNoiseReduction::Statistics`, with the per-band vectors modelled
as band-indexed functions.  The constructor zero-initializes all fields. -/
structure Statistics where
  totalWindows : ℕ
  trackWindows : ℕ
  sums : ℕ → ℚ
  means : ℕ → ℚ

/-- A fresh `Statistics` object. -/
def initStatistics : Statistics :=
  { totalWindows := 0, trackWindows := 0, sums := fun _ => 0, means := fun _ => 0 }

/-- The new-statistics part of `GatherStatistics`, one frame:
`++statistics.mTrackWindows` and `mSums[k] += power[k]`. -/
def gatherStatistics (power : ℕ → ℚ) (st : Statistics) : Statistics :=
  { st with
    trackWindows := st.trackWindows + 1
    sums := fun k => st.sums k + power k }

/-- `FinishTrackStatistics`: when the track contributed at least one window,
fold the per-track sums into the running means,
`mean = (mean * mTotalWindows + sum) / (mTrackWindows + mTotalWindows)`,
and reset the sums; in all cases reset `mTrackWindows` and advance
`mTotalWindows` to the combined count. -/
def finishTrackStatistics (st : Statistics) : Statistics :=
  let denom := st.trackWindows + st.totalWindows
  if st.trackWindows ≠ 0 then
    { totalWindows := denom
      trackWindows := 0
      sums := fun _ => 0
      means := fun k => (st.means k * (st.totalWindows : ℚ) + st.sums k) / (denom : ℚ) }
  else
    { st with trackWindows := 0, totalWindows := denom }

/-- One profiling track: gather one window of statistics per frame, then
fold the track's statistics at its end (as `ProcessOne` does on success). -/
def processTrackStats (frames : List (ℕ → ℚ)) (st : Statistics) : Statistics :=
  finishTrackStatistics (frames.foldl (fun acc p => gatherStatistics p acc) st)

/-- The whole profiling pass over a sequence of tracks, each given as its
list of per-frame power spectra, starting from a fresh `Statistics`. -/
def profilePass (tracks : List (List (ℕ → ℚ))) : Statistics :=
  tracks.foldl (fun st tr => processTrackStats tr st) initStatistics

/-- The worker state threaded through `ProcessSamples`, restricted to the
members the buffering discipline reads and writes.  `frames` counts
completed analysis frames and `emitted` records the value of
`mOutStepCount` at each `outputTrack->Append` call; both are observers of
the control flow, not source members. -/
structure WState where
  outStepCount : ℤ
  inWavePos : ℕ
  frames : ℕ
  emitted : List ℤ
deriving DecidableEq, Repr

/-- The state after `StartNewTrack`:
`mInWavePos = mWindowSize - mStepSize`, `mInSampleCount = 0`, and
`mOutStepCount = -(mHistoryLen - 1) - (mStepsPerWindow - 1)`. -/
def startNewTrackState (histLen stepsPerWindow windowSize stepSize : ℕ) : WState :=
  { outStepCount := -((histLen : ℤ) - 1) - ((stepsPerWindow : ℤ) - 1)
    inWavePos := windowSize - stepSize
    frames := 0
    emitted := [] }

/-- The loop body of `ProcessSamples`, structurally recursive on a fuel
bound.  Each iteration moves `avail = min(len, mWindowSize - mInWavePos)`
samples into the window buffer; when the buffer fills, one frame is
processed (in reducing mode `ReduceNoise` appends `mStepSize` samples to
the output iff `mOutStepCount >= 0`, inside its synthesis gate
`mOutStepCount >= -(mStepsPerWindow - 1)`), `mOutStepCount` is incremented
and the buffer slides left by `mStepSize`.  The loop runs while `len > 0`
and `mOutStepCount * mStepSize < mInSampleCount`; since each iteration
consumes at least one sample whenever the loop is entered with
`mInWavePos < mWindowSize` (which `StartNewTrack` and the slide establish),
a fuel of `len` is enough, and the `avail = 0` fuse is never reached from
such states. -/
def psAux (windowSize stepSize stepsPerWindow : ℕ) (inSampleCount : ℤ) :
    ℕ → ℕ → WState → WState
  | 0, _, s => s
  | _ + 1, 0, s => s
  | fuel + 1, len + 1, s =>
      if s.outStepCount * (stepSize : ℤ) < inSampleCount then
        let avail := min (len + 1) (windowSize - s.inWavePos)
        if avail = 0 then s
        else
          let pos := s.inWavePos + avail
          let s2 : WState :=
            if pos = windowSize then
              { outStepCount := s.outStepCount + 1
                inWavePos := pos - stepSize
                frames := s.frames + 1
                emitted :=
                  if -((stepsPerWindow : ℤ) - 1) ≤ s.outStepCount ∧ 0 ≤ s.outStepCount
                  then s.emitted ++ [s.outStepCount]
                  else s.emitted }
            else { s with inWavePos := pos }
          psAux windowSize stepSize stepsPerWindow inSampleCount fuel (len + 1 - avail) s2
      else s

/-- `ProcessSamples` on a block of `len` samples (their values do not
affect the buffering discipline, so they are not modelled). -/
def processSamples (windowSize stepSize stepsPerWindow : ℕ) (inSampleCount : ℤ)
    (len : ℕ) (s : WState) : WState :=
  psAux windowSize stepSize stepsPerWindow inSampleCount len len s

/-- `n` iterations of the `FinishTrack` flush loop body: each iteration
feeds one `mStepSize` block of zeros through `ProcessSamples`. -/
def flushIter (windowSize stepSize stepsPerWindow : ℕ) (inSampleCount : ℤ) :
    ℕ → WState → WState
  | 0, s => s
  | n + 1, s =>
      flushIter windowSize stepSize stepsPerWindow inSampleCount n
        (processSamples windowSize stepSize stepsPerWindow inSampleCount stepSize s)

/-- The `FinishTrack` flush loop with a fuel bound:
`while (mOutStepCount * mStepSize < mInSampleCount)
   ProcessSamples(…, mStepSize, &empty[0]);`. -/
def finishTrackF (windowSize stepSize stepsPerWindow : ℕ) (inSampleCount : ℤ) :
    ℕ → WState → WState
  | 0, s => s
  | fuel + 1, s =>
      if s.outStepCount * (stepSize : ℤ) < inSampleCount then
        finishTrackF windowSize stepSize stepsPerWindow inSampleCount fuel
          (processSamples windowSize stepSize stepsPerWindow inSampleCount stepSize s)
      else s

/-! ## Helper lemmas -/

theorem foldl_min_le_iff (l : List ℚ) (a c : ℚ) :
    l.foldl min a ≤ c ↔ a ≤ c ∨ ∃ x ∈ l, x ≤ c := by
  induction l generalizing a with
  | nil => simp
  | cons x t ih =>
      rw [List.foldl_cons, ih, min_le_iff]
      constructor
      · rintro ((h | h) | ⟨y, hy, hyc⟩)
        · exact Or.inl h
        · exact Or.inr ⟨x, List.mem_cons_self x t, h⟩
        · exact Or.inr ⟨y, List.mem_cons_of_mem x hy, hyc⟩
      · rintro (h | ⟨y, hy, hyc⟩)
        · exact Or.inl (Or.inl h)
        · rcases List.mem_cons.mp hy with rfl | hy
          · exact Or.inl (Or.inr hyc)
          · exact Or.inr ⟨y, hy, hyc⟩

theorem pow_le_four (c : ℕ) (h : 2 ^ (1 + c) ≤ 4) : c = 0 ∨ c = 1 := by
  by_contra hc
  push_neg at hc
  have h2 : 3 ≤ 1 + c := by omega
  have := Nat.pow_le_pow_right (show 1 ≤ 2 by norm_num) h2
  simp at this
  omega

/-! ## Claims -/

theorem validate_iff_aux (s : Settings) :
    s.validate = true ↔
      (minSteps s.windowTypes ≤ s.stepsPerWindow ∧
       s.stepsPerWindow ≤ s.windowSize ∧
       (s.method = DiscriminationMethod.median → s.stepsPerWindow ≤ 4)) := by
  unfold Settings.validate
  split_ifs with h1 h2 h3
  · simp only [Bool.false_eq_true, false_iff]
    intro h
    omega
  · simp only [Bool.false_eq_true, false_iff]
    intro h
    omega
  · simp only [Bool.false_eq_true, false_iff]
    intro h
    exact absurd (h.2.2 h3.1) (by omega)
  · simp only [true_iff]
    push_neg at h3
    refine ⟨by omega, by omega, fun hm => ?_⟩
    have := h3 hm
    omega

/-- C8: `Settings::Validate` returns true iff `steps_per_window` is at
least the window type's minimum steps, at most the window size, and at
most 4 when the method is Median; on any failure it returns false (and the
host shows a message and does not process). -/
theorem c8_validate_iff (s : Settings) :
    s.validate = true ↔
      (minSteps s.windowTypes ≤ s.stepsPerWindow ∧
       s.stepsPerWindow ≤ s.windowSize ∧
       (s.method = DiscriminationMethod.median → s.stepsPerWindow ≤ 4)) :=
  validate_iff_aux s

/-- C9: for any configuration accepted by `Settings::Validate`, the
`wxASSERT(false)` branches of `Classify` are unreachable: with the Median
method the validated steps per window is a power of two in [2,4], so
`mNWindowsToExamine = 1 + mStepsPerWindow` is 3 or 5, and the method is
always one of the three enumerated methods. -/
theorem c9_classify_asserts_unreachable (s : Settings) (rate : ℚ)
    (h : s.validate = true) :
    classifyHitsAssert s.method
        (nWindowsToExamine s.method s.stepsPerWindow
          (s.windowSize / s.stepsPerWindow) rate) = false ∧
    (s.method = DiscriminationMethod.median ∨
     s.method = DiscriminationMethod.secondGreatest ∨
     s.method = DiscriminationMethod.oldMethod) := by
  have hval := (validate_iff_aux s).mp h
  constructor
  · cases hm : s.method with
    | median =>
        have hsteps : s.stepsPerWindow ≤ 4 := hval.2.2 hm
        have h2 : 2 ^ (1 + s.stepsPerWindowChoice) ≤ 4 := hsteps
        rcases pow_le_four _ h2 with hc | hc <;>
          simp [classifyHitsAssert, nWindowsToExamine, Settings.stepsPerWindow, hc]
    | secondGreatest => simp [classifyHitsAssert]
    | oldMethod => simp [classifyHitsAssert]
  · cases s.method <;> simp

/-- Witness for C9 at a concrete validated configuration. -/
theorem c9_witness :
    ({ windowTypes := WindowTypes.hannHann, windowSizeChoice := 8,
       stepsPerWindowChoice := 1,
       method := DiscriminationMethod.median } : Settings).validate = true ∧
    classifyHitsAssert DiscriminationMethod.median
        (nWindowsToExamine DiscriminationMethod.median
          ({ windowTypes := WindowTypes.hannHann, windowSizeChoice := 8,
             stepsPerWindowChoice := 1,
             method := DiscriminationMethod.median } : Settings).stepsPerWindow
          (({ windowTypes := WindowTypes.hannHann, windowSizeChoice := 8,
              stepsPerWindowChoice := 1,
              method := DiscriminationMethod.median } : Settings).windowSize /
            ({ windowTypes := WindowTypes.hannHann, windowSizeChoice := 8,
               stepsPerWindowChoice := 1,
               method := DiscriminationMethod.median } : Settings).stepsPerWindow)
          (44100 : ℚ)) = false :=
  ⟨by decide,
   (c9_classify_asserts_unreachable
      { windowTypes := WindowTypes.hannHann, windowSizeChoice := 8,
        stepsPerWindowChoice := 1, method := DiscriminationMethod.median }
      (44100 : ℚ) (by decide)).1⟩

theorem zipWith_sub_flatMap_pairs (l : List ℕ) (f1 g1 f2 g2 : ℕ → ℚ) :
    List.zipWith (· - ·) (l.flatMap fun i => [f1 i, g1 i])
        (l.flatMap fun i => [f2 i, g2 i])
      = l.flatMap fun i => [f1 i - f2 i, g1 i - g2 i] := by
  induction l with
  | nil => rfl
  | cons x t ih => simp [List.flatMap_cons, ih]

/-- C1 (counterexample): with a single nonzero bin and gain 1/2, the sum of
the ReduceNoise-mode and LeaveResidue-mode gain-scaled spectra is the zero
spectrum, not the unity-gain spectrum that resynthesizes to the input (the
relative error is 1, far beyond any 1e-5 tolerance). -/
theorem c1_counterexample :
    List.zipWith (· + ·)
        (fftBufferAfterGain false (fun _ => 1) (fun _ => 0) (fun _ => (1 : ℚ)/2) 2)
        (fftBufferAfterGain true (fun _ => 1) (fun _ => 0) (fun _ => (1 : ℚ)/2) 2)
      ≠ fftBufferAfterGain false (fun _ => 1) (fun _ => 0) (fun _ => 1) 2 := by
  norm_num [fftBufferAfterGain, gainFactor]

/-- C1 (amended): per frame the Residue path scales every spectrum bin by
`gain - 1` in place of `gain`, and consequently the Reduce-mode spectrum
MINUS the Residue-mode spectrum equals the unity-gain spectrum (which
resynthesizes to the input): the residue is the phase-flipped removed
noise, so `reduce_output - residue_output = input`, not
`reduce_output + residue_output = input`. -/
theorem c1_residue_difference (re im gain : ℕ → ℚ) (spectrumSize : ℕ) :
    fftBufferAfterGain true re im gain spectrumSize
        = fftBufferAfterGain false re im (fun k => gain k - 1) spectrumSize ∧
    List.zipWith (· - ·)
        (fftBufferAfterGain false re im gain spectrumSize)
        (fftBufferAfterGain true re im gain spectrumSize)
      = fftBufferAfterGain false re im (fun _ => 1) spectrumSize := by
  constructor
  · simp [fftBufferAfterGain, gainFactor]
  · simp only [fftBufferAfterGain, gainFactor, List.zipWith_cons_cons,
      zipWith_sub_flatMap_pairs, List.cons.injEq]
    refine ⟨by ring, by ring, ?_⟩
    have hfun :
        (fun i => [re (i + 1) * gain (i + 1) - re (i + 1) * (gain (i + 1) - 1),
                   im (i + 1) * gain (i + 1) - im (i + 1) * (gain (i + 1) - 1)])
          = fun i => [re (i + 1) * (1 : ℚ), im (i + 1) * (1 : ℚ)] := by
      funext i
      have h1 : re (i + 1) * gain (i + 1) - re (i + 1) * (gain (i + 1) - 1)
          = re (i + 1) * 1 := by ring
      have h2 : im (i + 1) * gain (i + 1) - im (i + 1) * (gain (i + 1) - 1)
          = im (i + 1) * 1 := by ring
      rw [h1, h2]
    rw [hfun]

/-- C2 (counterexample): `Classify` with the Old method examines only the
newest `mNWindowsToExamine` ring slots, not all `mHistoryLen` slots.  In
reducing mode `mHistoryLen = max(mNWindowsToExamine, mCenter +
nAttackBlocks)` can exceed `mNWindowsToExamine` (here 3 > 2, as with a
long attack time); on the ring `[5, 5, 0]` with `sensitivity_factor =
noise_threshold = 1` the code classifies "not noise" while the claimed
min-over-`history_len` formula says "noise". -/
theorem c2_counterexample :
    classify DiscriminationMethod.oldMethod 2 1 1 0 0 [5, 5, 0] = false ∧
      minOverHistory 3 [5, 5, 0] ≤ 1 * 1 := by
  constructor
  · norm_num [classify, oldMinOf]
  · norm_num [minOverHistory]

/-- C2 (amended): with method = Old, the classifier returns "is noise" for
a band iff the minimum of `power[band]` over the newest
`n_windows_to_examine` ring slots (not all `history_len` slots) is at most
`sensitivity_factor * noise_threshold[band]`; equivalently, iff some slot
among the first `nW` has power at most the threshold. -/
theorem c2_old_method_min (nW : ℕ) (sensitivityFactor noiseThreshold ns mn : ℚ)
    (powers : List ℚ) (hne : powers ≠ []) (hnW : 1 ≤ nW) :
    classify DiscriminationMethod.oldMethod nW sensitivityFactor noiseThreshold ns mn
        powers = true ↔
      ∃ x ∈ powers.take nW, x ≤ sensitivityFactor * noiseThreshold := by
  obtain ⟨p, rest, rfl⟩ := List.exists_cons_of_ne_nil hne
  obtain ⟨m, rfl⟩ : ∃ m, nW = m + 1 := ⟨nW - 1, by omega⟩
  simp only [classify, oldMinOf, decide_eq_true_eq, List.take_succ_cons,
    List.drop_succ_cons, List.drop_zero]
  rw [foldl_min_le_iff]
  simp only [List.mem_cons]
  constructor
  · rintro (h | ⟨x, hx, hxc⟩)
    · exact ⟨p, Or.inl rfl, h⟩
    · exact ⟨x, Or.inr hx, hxc⟩
  · rintro ⟨x, rfl | hx, hxc⟩
    · exact Or.inl hxc
    · exact Or.inr ⟨x, hx, hxc⟩

/-- Witness for C2's amended theorem on a concrete ring. -/
theorem c2_witness :
    ([(5 : ℚ), 1, 7] ≠ ([] : List ℚ) ∧ 1 ≤ 2) ∧
    (classify DiscriminationMethod.oldMethod 2 1 2 0 0 [(5 : ℚ), 1, 7] = true ↔
      ∃ x ∈ ([(5 : ℚ), 1, 7] : List ℚ).take 2, x ≤ 1 * 2) :=
  ⟨⟨by decide, by decide⟩,
   c2_old_method_min 2 1 2 0 0 [(5 : ℚ), 1, 7] (by decide) (by decide)⟩

/-- C7: for a fixed ring and fixed profile statistics, with method Median
or SecondGreatest, classification as noise is monotone in the sensitivity
setting: if a band is noise at raw sensitivity `r1` it is noise at any
`r2 ≥ r1` (both in the dialog range 1…24).  `L` stands for the positive
conversion constant `log 10` by which the worker multiplies the raw
setting, and `mean ≥ 0` holds for the profile means (averages of powers). -/
theorem c7_sensitivity_monotone (method : DiscriminationMethod) (nW : ℕ)
    (sensitivityFactor noiseThreshold L r1 r2 mean : ℚ) (powers : List ℚ)
    (hm : method ≠ DiscriminationMethod.oldMethod)
    (hr1 : 1 ≤ r1) (hr : r1 ≤ r2) (hr2 : r2 ≤ 24)
    (hL : 0 ≤ L) (hmean : 0 ≤ mean)
    (h : classify method nW sensitivityFactor noiseThreshold (r1 * L) mean powers
      = true) :
    classify method nW sensitivityFactor noiseThreshold (r2 * L) mean powers
      = true := by
  have key : ∀ v : ℚ, v ≤ r1 * L * mean → v ≤ r2 * L * mean := by
    intro v hv
    refine hv.trans ?_
    exact mul_le_mul_of_nonneg_right (mul_le_mul_of_nonneg_right hr hL) hmean
  cases method with
  | oldMethod => exact absurd rfl hm
  | median =>
      simp only [classify] at h ⊢
      split_ifs at h ⊢ with h3 h5
      · exact decide_eq_true (key _ (of_decide_eq_true h))
      · exact decide_eq_true (key _ (of_decide_eq_true h))
      · exact h
  | secondGreatest =>
      simp only [classify, decide_eq_true_eq] at h ⊢
      exact key _ h

/-- Witness for C7 at a concrete ring and sensitivities. -/
theorem c7_witness :
    (DiscriminationMethod.secondGreatest ≠ DiscriminationMethod.oldMethod ∧
     (1 : ℚ) ≤ 1 ∧ (1 : ℚ) ≤ 2 ∧ (2 : ℚ) ≤ 24 ∧ (0 : ℚ) ≤ 1 ∧ (0 : ℚ) ≤ 3 ∧
     classify DiscriminationMethod.secondGreatest 2 0 0 (1 * 1) 3 [(1 : ℚ), 2]
       = true) ∧
    classify DiscriminationMethod.secondGreatest 2 0 0 (2 * 1) 3 [(1 : ℚ), 2]
      = true :=
  ⟨⟨by decide, by norm_num, by norm_num, by norm_num, by norm_num, by norm_num,
    by norm_num [classify, secondGreatestOf, top2Step]⟩,
   c7_sensitivity_monotone DiscriminationMethod.secondGreatest 2 0 0 1 1 2 3
     [(1 : ℚ), 2] (by decide) (by norm_num) (by norm_num) (by norm_num)
     (by norm_num) (by norm_num)
     (by norm_num [classify, secondGreatestOf, top2Step])⟩

theorem gainLB_replicate (a : ℚ) (n : ℕ) : GainLB a (List.replicate n a) := by
  intro x hx
  rw [List.eq_of_mem_replicate hx]

theorem gainLB_attackFrom (a atk : ℚ) (l : List ℚ) (hl : GainLB a l) :
    ∀ prev : ℚ, GainLB a (attackFrom a atk prev l) := by
  induction l with
  | nil => intro prev x hx; simp [attackFrom] at hx
  | cons g rest ih =>
      intro prev x hx
      have hg : a ≤ g := hl g (List.mem_cons_self g rest)
      have hrest : GainLB a rest := fun y hy => hl y (List.mem_cons_of_mem g hy)
      simp only [attackFrom] at hx
      split_ifs at hx with hcond
      · rcases List.mem_cons.mp hx with rfl | hx
        · exact le_max_left _ _
        · exact ih hrest _ x hx
      · rcases List.mem_cons.mp hx with rfl | hx
        · exact hg
        · exact hrest x hx

theorem gainLB_attackBand (a atk : ℚ) (center : ℕ) (col : List ℚ)
    (hcol : GainLB a col) : GainLB a (attackBand a atk center col) := by
  intro x hx
  rcases List.mem_append.mp hx with hx | hx
  · exact hcol x ((List.take_sublist _ _).subset hx)
  · refine gainLB_attackFrom a atk _ ?_ _ x hx
    exact fun y hy => hcol y ((List.drop_sublist _ _).subset hy)

theorem gainLB_releaseBand (a rel : ℚ) (center : ℕ) (col : List ℚ)
    (hcol : GainLB a col) : GainLB a (releaseBand a rel center col) := by
  intro x hx
  rcases List.mem_or_eq_of_mem_set hx with hx | rfl
  · exact hcol x hx
  · exact le_trans (le_max_left _ _) (le_max_right _ _)

theorem gainLB_raiseCenterGains (a : ℚ) (binLow binHigh : ℕ) (cls : ℕ → Bool)
    (g : List ℚ) (ha : a ≤ 1) (hg : GainLB a g) :
    GainLB a (raiseCenterGains binLow binHigh cls g) := by
  intro x hx
  simp only [raiseCenterGains, List.mem_map, List.mem_range] at hx
  obtain ⟨j, hj, rfl⟩ := hx
  have hgj : a ≤ g.getD j 0 := by
    rw [List.getD_eq_getElem _ _ hj]
    exact hg _ (List.getElem_mem _)
  split_ifs <;> first | exact ha | exact hgj

theorem length_mul_le_sum (a : ℚ) (l : List ℕ) (f : ℕ → ℚ)
    (h : ∀ j ∈ l, a ≤ f j) : (l.length : ℚ) * a ≤ (l.map f).sum := by
  induction l with
  | nil => simp
  | cons x t ih =>
      have hx : a ≤ f x := h x (List.mem_cons_self x t)
      have ht := ih fun j hj => h j (List.mem_cons_of_mem x hj)
      simp only [List.map_cons, List.sum_cons, List.length_cons]
      push_cast
      linarith

theorem gainLB_applyFreqSmoothingLog (a : ℚ) (B S : ℕ) (g : List ℚ)
    (hlen : S ≤ g.length) (hg : GainLB a (g.take S)) :
    GainLB a ((applyFreqSmoothingLog B S g).take S) := by
  unfold applyFreqSmoothingLog
  split_ifs with hB
  · exact hg
  · intro x hx
    have hxmem : x ∈ (List.range S).map fun ii =>
        (((List.range' (ii - B) (min (S - 1) (ii + B) + 1 - (ii - B))).map
          fun j => g.getD j 0).sum) /
          ((min (S - 1) (ii + B) + 1 - (ii - B) : ℕ) : ℚ) := by
      exact (List.take_sublist _ _).subset hx
    simp only [List.mem_map, List.mem_range] at hxmem
    obtain ⟨ii, hii, rfl⟩ := hxmem
    have hj01 : ii - B ≤ min (S - 1) (ii + B) := by omega
    have hcount : 0 < min (S - 1) (ii + B) + 1 - (ii - B) := by omega
    have hterm : ∀ j ∈ List.range' (ii - B) (min (S - 1) (ii + B) + 1 - (ii - B)),
        a ≤ g.getD j 0 := by
      intro j hj
      rw [List.mem_range'] at hj
      have hjS : j < S := by omega
      have hjg : j < g.length := lt_of_lt_of_le hjS hlen
      rw [List.getD_eq_getElem _ _ hjg]
      have : g[j] ∈ g.take S := by
        rw [List.mem_take_iff_getElem]
        exact ⟨j, by omega, rfl⟩
      exact hg _ this
    have hsum := length_mul_le_sum a _ _ hterm
    rw [List.length_range'] at hsum
    rw [le_div_iff₀ (by exact_mod_cast hcount)]
    linarith [hsum]

/-- C3: in the ReduceNoise and LeaveResidue modes every gain-mutating
operation preserves the lower bound `mNoiseAttenFactor` on every gain
entry, and `StartNewTrack` establishes it: the `StartNewTrack` fill, the
slot-0 prefill of `FillFirstHistoryWindow`, the center-slot classification
raise (which only writes 1, with `mNoiseAttenFactor = 10^(-gain_dB/20) ≤ 1`),
the backward attack walk, the one-step release, and the frequency smoothing
(a windowed arithmetic mean in the log domain, stated here on the
log-domain values where the bound `a` transports along the monotone
`exp`/`log` pair).  `col` is one band's gain column across ring slots and
`g`, `gOut` are one slot's gain vector across bands. -/
theorem c3_gain_lower_bound (a atk rel : ℚ)
    (histLen spectrumSize center binLow binHigh B S : ℕ)
    (cls : ℕ → Bool) (g col gOut : List ℚ)
    (ha : a ≤ 1) (hg : GainLB a g) (hcol : GainLB a col)
    (hlen : S ≤ gOut.length) (hOut : GainLB a (gOut.take S)) :
    (∀ slot ∈ startNewTrackGains histLen spectrumSize a, GainLB a slot) ∧
    GainLB a (prefillGains spectrumSize a) ∧
    GainLB a (raiseCenterGains binLow binHigh cls g) ∧
    GainLB a (attackBand a atk center col) ∧
    GainLB a (releaseBand a rel center col) ∧
    GainLB a ((applyFreqSmoothingLog B S gOut).take S) := by
  refine ⟨?_, ?_, ?_, ?_, ?_, ?_⟩
  · intro slot hslot
    rw [List.eq_of_mem_replicate hslot]
    exact gainLB_replicate a spectrumSize
  · exact gainLB_replicate a spectrumSize
  · exact gainLB_raiseCenterGains a binLow binHigh cls g ha hg
  · exact gainLB_attackBand a atk center col hcol
  · exact gainLB_releaseBand a rel center col hcol
  · exact gainLB_applyFreqSmoothingLog a B S gOut hlen hOut

/-- Witness for C3 on concrete gains. -/
theorem c3_witness :
    ((1 : ℚ)/2 ≤ 1 ∧ GainLB ((1 : ℚ)/2) [(1 : ℚ)/2, 1] ∧
     GainLB ((1 : ℚ)/2) [(1 : ℚ), 1/2, 3/4] ∧
     (2 : ℕ) ≤ ([(3 : ℚ)/4, 1] : List ℚ).length ∧
     GainLB ((1 : ℚ)/2) (([(3 : ℚ)/4, 1] : List ℚ).take 2)) ∧
    ((∀ slot ∈ startNewTrackGains 2 2 ((1 : ℚ)/2), GainLB ((1 : ℚ)/2) slot) ∧
     GainLB ((1 : ℚ)/2) (prefillGains 2 ((1 : ℚ)/2)) ∧
     GainLB ((1 : ℚ)/2)
       (raiseCenterGains 0 2 (fun _ => true) [(1 : ℚ)/2, 1]) ∧
     GainLB ((1 : ℚ)/2) (attackBand ((1 : ℚ)/2) ((1 : ℚ)/2) 1 [(1 : ℚ), 1/2, 3/4]) ∧
     GainLB ((1 : ℚ)/2) (releaseBand ((1 : ℚ)/2) ((1 : ℚ)/2) 1 [(1 : ℚ), 1/2, 3/4]) ∧
     GainLB ((1 : ℚ)/2) ((applyFreqSmoothingLog 1 2 [(3 : ℚ)/4, 1]).take 2)) :=
  ⟨⟨by norm_num, by norm_num [GainLB], by norm_num [GainLB], by norm_num,
    by norm_num [GainLB]⟩,
   c3_gain_lower_bound ((1 : ℚ)/2) ((1 : ℚ)/2) ((1 : ℚ)/2) 2 2 1 0 2 1 2
     (fun _ => true) [(1 : ℚ)/2, 1] [(1 : ℚ), 1/2, 3/4] [(3 : ℚ)/4, 1]
     (by norm_num) (by norm_num [GainLB]) (by norm_num [GainLB]) (by norm_num)
     (by norm_num [GainLB])⟩

theorem isBinary_isolateCenterGains (binLow binHigh spectrumSize : ℕ)
    (cls : ℕ → Bool) :
    IsBinaryGains (isolateCenterGains binLow binHigh spectrumSize cls) := by
  intro x hx
  simp only [isolateCenterGains, List.mem_map, List.mem_range] at hx
  obtain ⟨j, _, rfl⟩ := hx
  split_ifs <;> simp

theorem rotateRing_getD (ring : List (List ℚ)) (p : ℕ) (hp : 1 ≤ p)
    (hlt : p < ring.length) :
    (rotateRing ring).getD p [] = ring.getD (p - 1) [] := by
  have hne : ring ≠ [] := by
    intro h
    rw [h] at hlt
    simp at hlt
  unfold rotateRing
  rw [List.getLast?_eq_getLast _ hne]
  obtain ⟨m, rfl⟩ : ∃ m, p = m + 1 := ⟨p - 1, by omega⟩
  simp only [List.getD_cons_succ, Nat.add_sub_cancel]
  have hm : m < ring.dropLast.length := by
    rw [List.length_dropLast]
    omega
  rw [List.getD_eq_getElem _ _ hm, List.getD_eq_getElem _ _ (by omega),
    List.getElem_dropLast]

theorem rotateRing_length (l : List (List ℚ)) :
    (rotateRing l).length = l.length := by
  unfold rotateRing
  rcases l with _ | ⟨x, xs⟩
  · rfl
  · rw [List.getLast?_eq_getLast _ (by simp)]
    simp [List.length_dropLast]

theorem isoRun_length (center binLow binHigh spectrumSize : ℕ)
    (clsSeq : ℕ → ℕ → Bool) (n : ℕ) (ring : List (List ℚ)) :
    (isoRun center binLow binHigh spectrumSize clsSeq n ring).length
      = ring.length := by
  induction n with
  | zero => rfl
  | succ n ih =>
      show (isoStep center binLow binHigh spectrumSize (clsSeq n) _).length = _
      unfold isoStep isoFrame
      rw [rotateRing_length, List.length_set, ih]

theorem isoRun_binary (center binLow binHigh spectrumSize histLen : ℕ)
    (clsSeq : ℕ → ℕ → Bool) (hc : center < histLen) :
    ∀ (n : ℕ) (ring : List (List ℚ)), ring.length = histLen →
      ∀ p, center < p → p ≤ center + n → p < histLen →
        IsBinaryGains
          ((isoRun center binLow binHigh spectrumSize clsSeq n ring).getD p []) := by
  intro n
  induction n with
  | zero =>
      intro ring hr p hp1 hp2 _
      omega
  | succ n ih =>
      intro ring hr p hp1 hp2 hp3
      have hlenR : (isoRun center binLow binHigh spectrumSize clsSeq n
          ring).length = histLen := by rw [isoRun_length, hr]
      have hlenSet : ((isoRun center binLow binHigh spectrumSize clsSeq n
          ring).set center (isolateCenterGains binLow binHigh spectrumSize
            (clsSeq n))).length = histLen := by
        rw [List.length_set, hlenR]
      show IsBinaryGains ((isoStep center binLow binHigh spectrumSize (clsSeq n)
        (isoRun center binLow binHigh spectrumSize clsSeq n ring)).getD p [])
      unfold isoStep isoFrame
      rw [rotateRing_getD _ p (by omega) (by rw [hlenSet]; omega)]
      rcases Nat.lt_or_ge (p - 1) (center + 1) with hpc | hpc
      · have hpceq : p - 1 = center := by omega
        rw [hpceq, List.getD_eq_getElem?_getD,
          List.getElem?_set_self (by rw [hlenR]; omega), Option.getD_some]
        exact isBinary_isolateCenterGains _ _ _ _
      · have hne : center ≠ p - 1 := by omega
        rw [List.getD_eq_getElem?_getD, List.getElem?_set_ne hne,
          ← List.getD_eq_getElem?_getD]
        exact ih ring hr (p - 1) (by omega) (by omega) (by omega)

/-- C4: in IsolateNoise mode, for every frame that reaches synthesis (the
gate `mOutStepCount ≥ -(mStepsPerWindow - 1)` at frame `n`, where
`mOutStepCount = -(mHistoryLen-1) - (mStepsPerWindow-1) + n`), every entry
of the outgoing (oldest) ring slot's gain vector is 0 or 1: the slot's
gains were written as {0,1} when it was the center slot, and rotation is
the only later operation touching it (the prefill, attack, release and
smoothing paths are all skipped in this mode), starting from any
`StartNewTrack` ring. -/
theorem c4_isolate_binary_gains (center binLow binHigh spectrumSize histLen
      stepsPerWindow n : ℕ) (clsSeq : ℕ → ℕ → Bool) (ring : List (List ℚ))
    (hc : center < histLen) (hr : ring.length = histLen)
    (hgate : -((histLen : ℤ) - 1) - ((stepsPerWindow : ℤ) - 1) + n
      ≥ -((stepsPerWindow : ℤ) - 1)) :
    IsBinaryGains
      ((isoFrame center binLow binHigh spectrumSize (clsSeq n)
          (isoRun center binLow binHigh spectrumSize clsSeq n ring)).getD
        (histLen - 1) []) := by
  have hn : histLen - 1 ≤ n := by omega
  have hlenR : (isoRun center binLow binHigh spectrumSize clsSeq n
      ring).length = histLen := by rw [isoRun_length, hr]
  unfold isoFrame
  rcases Nat.lt_or_ge center (histLen - 1) with hcl | hcl
  · rw [List.getD_eq_getElem?_getD,
      List.getElem?_set_ne (show center ≠ histLen - 1 by omega),
      ← List.getD_eq_getElem?_getD]
    exact isoRun_binary center binLow binHigh spectrumSize histLen clsSeq hc n
      ring hr (histLen - 1) (by omega) (by omega) (by omega)
  · have hceq : center = histLen - 1 := by omega
    rw [List.getD_eq_getElem?_getD, ← hceq,
      List.getElem?_set_self (by rw [hlenR]; omega), Option.getD_some]
    exact isBinary_isolateCenterGains _ _ _ _

/-- Witness for C4 at a concrete two-slot ring. -/
theorem c4_witness :
    ((1 : ℕ) < 2 ∧ ([[(1 : ℚ)/2], [(1 : ℚ)/2]] : List (List ℚ)).length = 2 ∧
     -((2 : ℤ) - 1) - ((2 : ℤ) - 1) + 1 ≥ -((2 : ℤ) - 1)) ∧
    IsBinaryGains
      ((isoFrame 1 0 1 1 (fun _ => true)
          (isoRun 1 0 1 1 (fun _ _ => true) 1 [[(1 : ℚ)/2], [(1 : ℚ)/2]])).getD
        (2 - 1) []) :=
  ⟨⟨by decide, by decide, by decide⟩,
   c4_isolate_binary_gains 1 0 1 1 2 2 1 (fun _ _ => true)
     [[(1 : ℚ)/2], [(1 : ℚ)/2]] (by decide) (by decide) (by decide)⟩

theorem gather_foldl (k : ℕ) (frames : List (ℕ → ℚ)) :
    ∀ st : Statistics,
      (frames.foldl (fun acc p => gatherStatistics p acc) st).trackWindows
          = st.trackWindows + frames.length ∧
      (frames.foldl (fun acc p => gatherStatistics p acc) st).sums k
          = st.sums k + (frames.map fun p => p k).sum ∧
      (frames.foldl (fun acc p => gatherStatistics p acc) st).totalWindows
          = st.totalWindows ∧
      (frames.foldl (fun acc p => gatherStatistics p acc) st).means k
          = st.means k := by
  induction frames with
  | nil => intro st; simp
  | cons p rest ih =>
      intro st
      obtain ⟨h1, h2, h3, h4⟩ := ih (gatherStatistics p st)
      refine ⟨?_, ?_, ?_, ?_⟩
      · rw [List.foldl_cons, h1]
        simp [gatherStatistics]
        omega
      · rw [List.foldl_cons, h2]
        simp [gatherStatistics]
        ring
      · rw [List.foldl_cons, h3]
        rfl
      · rw [List.foldl_cons, h4]
        rfl

/-- Total frame count over all profiling tracks. -/
def totalFrames (tracks : List (List (ℕ → ℚ))) : ℕ :=
  (tracks.map List.length).sum

/-- Sum of `power[k]` over all frames of all profiling tracks. -/
def sumPowers (k : ℕ) (tracks : List (List (ℕ → ℚ))) : ℚ :=
  (tracks.map fun tr => (tr.map fun p => p k).sum).sum

theorem fts_trackWindows (st : Statistics) :
    (finishTrackStatistics st).trackWindows = 0 := by
  simp only [finishTrackStatistics]
  split_ifs <;> rfl

theorem fts_totalWindows (st : Statistics) :
    (finishTrackStatistics st).totalWindows = st.trackWindows + st.totalWindows := by
  simp only [finishTrackStatistics]
  split_ifs <;> rfl

theorem fts_sums_pos (st : Statistics) (h : st.trackWindows ≠ 0) (k : ℕ) :
    (finishTrackStatistics st).sums k = 0 := by
  simp only [finishTrackStatistics]
  rw [if_pos h]

theorem fts_means_pos (st : Statistics) (h : st.trackWindows ≠ 0) (k : ℕ) :
    (finishTrackStatistics st).means k
      = (st.means k * (st.totalWindows : ℚ) + st.sums k)
          / ((st.trackWindows + st.totalWindows : ℕ) : ℚ) := by
  simp only [finishTrackStatistics]
  rw [if_pos h]

theorem fts_sums_zero (st : Statistics) (h : st.trackWindows = 0) (k : ℕ) :
    (finishTrackStatistics st).sums k = st.sums k := by
  simp only [finishTrackStatistics]
  rw [if_neg (by simp [h])]

theorem fts_means_zero (st : Statistics) (h : st.trackWindows = 0) (k : ℕ) :
    (finishTrackStatistics st).means k = st.means k := by
  simp only [finishTrackStatistics]
  rw [if_neg (by simp [h])]

theorem profile_fold_invariant (k : ℕ) (tracks : List (List (ℕ → ℚ))) :
    ∀ st : Statistics, st.trackWindows = 0 → st.sums k = 0 →
      (tracks.foldl (fun acc tr => processTrackStats tr acc) st).trackWindows = 0 ∧
      (tracks.foldl (fun acc tr => processTrackStats tr acc) st).sums k = 0 ∧
      (tracks.foldl (fun acc tr => processTrackStats tr acc) st).totalWindows
          = st.totalWindows + totalFrames tracks ∧
      (tracks.foldl (fun acc tr => processTrackStats tr acc) st).means k
            * ((st.totalWindows + totalFrames tracks : ℕ) : ℚ)
          = st.means k * (st.totalWindows : ℚ) + sumPowers k tracks := by
  induction tracks with
  | nil =>
      intro st h1 h2
      simp [totalFrames, sumPowers, h1, h2]
  | cons tr rest ih =>
      intro st h1 h2
      rw [List.foldl_cons]
      obtain ⟨g1, g2, g3, g4⟩ := gather_foldl k tr st
      set st1 := tr.foldl (fun acc p => gatherStatistics p acc) st with hst1
      have hst2 : processTrackStats tr st = finishTrackStatistics st1 := rfl
      rw [hst2]
      by_cases htr : st1.trackWindows = 0
      · have hlen : tr.length = 0 := by omega
        have htr0 : tr = [] := List.length_eq_zero.mp hlen
        obtain ⟨r1, r2, r3, r4⟩ := ih (finishTrackStatistics st1)
          (fts_trackWindows st1)
          (by rw [fts_sums_zero st1 htr k, g2, h2, htr0]; simp)
        have hTot : (finishTrackStatistics st1).totalWindows = st.totalWindows := by
          rw [fts_totalWindows, htr, g3]
          omega
        have hMean : (finishTrackStatistics st1).means k = st.means k := by
          rw [fts_means_zero st1 htr k, g4]
        refine ⟨r1, r2, ?_, ?_⟩
        · rw [r3, hTot]
          simp [totalFrames, htr0]
        · have hNat : st.totalWindows + totalFrames (tr :: rest)
              = (finishTrackStatistics st1).totalWindows + totalFrames rest := by
            rw [hTot]
            simp [totalFrames, htr0]
          rw [hNat, r4, hTot, hMean]
          simp [sumPowers, totalFrames, htr0]
      · obtain ⟨r1, r2, r3, r4⟩ := ih (finishTrackStatistics st1)
          (fts_trackWindows st1) (fts_sums_pos st1 htr k)
        have hdenom : ((st1.trackWindows + st1.totalWindows : ℕ) : ℚ) ≠ 0 := by
          have hpos : 0 < st1.trackWindows + st1.totalWindows := by omega
          exact_mod_cast hpos.ne.symm
        have hTot : (finishTrackStatistics st1).totalWindows
            = st.totalWindows + tr.length := by
          rw [fts_totalWindows, g1, g3, h1]
          omega
        refine ⟨r1, r2, ?_, ?_⟩
        · rw [r3, hTot]
          simp only [totalFrames, List.map_cons, List.sum_cons]
          omega
        · have hNat : st.totalWindows + totalFrames (tr :: rest)
              = (finishTrackStatistics st1).totalWindows + totalFrames rest := by
            rw [hTot]
            simp only [totalFrames, List.map_cons, List.sum_cons]
            omega
          rw [hNat, r4, fts_means_pos st1 htr k, hTot]
          have hcast : ((st1.trackWindows + st1.totalWindows : ℕ) : ℚ)
              = ((st.totalWindows + tr.length : ℕ) : ℚ) := by
            rw [g1, g3, h1]
            push_cast
            ring
          rw [← hcast, div_mul_cancel₀ _ hdenom, g4, g2, g3, h2]
          simp only [sumPowers, List.map_cons, List.sum_cons]
          ring

/-- C5: at the end of each profiling track the statistics are folded as
`means[k] = (means[k]*total_windows + sums[k]) / (track_windows +
total_windows)`, `total_windows` grows by `track_windows`, and `sums` and
`track_windows` reset to zero; consequently after the whole profiling pass
`means[k]` is the arithmetic mean of `power[k]` over all frames of all
tracks — the same result as one concatenated track. -/
theorem c5_profile_statistics (k : ℕ) (tracks : List (List (ℕ → ℚ)))
    (hN : totalFrames tracks ≠ 0) :
    (∀ st : Statistics, st.trackWindows ≠ 0 →
        (finishTrackStatistics st).means k
            = (st.means k * (st.totalWindows : ℚ) + st.sums k)
                / ((st.trackWindows + st.totalWindows : ℕ) : ℚ) ∧
        (finishTrackStatistics st).totalWindows
            = st.trackWindows + st.totalWindows ∧
        (finishTrackStatistics st).sums k = 0 ∧
        (finishTrackStatistics st).trackWindows = 0) ∧
    (profilePass tracks).totalWindows = totalFrames tracks ∧
    (profilePass tracks).means k
        = sumPowers k tracks / ((totalFrames tracks : ℕ) : ℚ) := by
  obtain ⟨r1, r2, r3, r4⟩ :=
    profile_fold_invariant k tracks initStatistics rfl rfl
  have hcast : ((totalFrames tracks : ℕ) : ℚ) ≠ 0 := by
    exact_mod_cast hN
  refine ⟨?_, ?_, ?_⟩
  · intro st htr
    exact ⟨fts_means_pos st htr k, fts_totalWindows st, fts_sums_pos st htr k,
      fts_trackWindows st⟩
  · show (tracks.foldl (fun acc tr => processTrackStats tr acc)
        initStatistics).totalWindows = totalFrames tracks
    rw [r3]
    simp [initStatistics]
  · show (tracks.foldl (fun acc tr => processTrackStats tr acc)
        initStatistics).means k = sumPowers k tracks / ((totalFrames tracks : ℕ) : ℚ)
    rw [eq_div_iff hcast]
    have h0 : initStatistics.totalWindows + totalFrames tracks
        = totalFrames tracks := by
      simp [initStatistics]
    rw [h0] at r4
    rw [r4]
    simp [initStatistics]

/-- Witness for C5 on two concrete one-frame tracks. -/
theorem c5_witness :
    totalFrames [[fun _ => (2 : ℚ)], [fun _ => (4 : ℚ)]] ≠ 0 ∧
    (profilePass [[fun _ => (2 : ℚ)], [fun _ => (4 : ℚ)]]).totalWindows
        = totalFrames [[fun _ => (2 : ℚ)], [fun _ => (4 : ℚ)]] ∧
    (profilePass [[fun _ => (2 : ℚ)], [fun _ => (4 : ℚ)]]).means 0
        = sumPowers 0 [[fun _ => (2 : ℚ)], [fun _ => (4 : ℚ)]]
            / ((totalFrames [[fun _ => (2 : ℚ)], [fun _ => (4 : ℚ)]] : ℕ) : ℚ) :=
  ⟨by norm_num [totalFrames],
   (c5_profile_statistics 0 [[fun _ => (2 : ℚ)], [fun _ => (4 : ℚ)]]
      (by norm_num [totalFrames])).2⟩

theorem psAux_len_zero (W st sp : ℕ) (inC : ℤ) (fuel : ℕ) (s : WState) :
    psAux W st sp inC fuel 0 s = s := by
  cases fuel <;> rfl

theorem psAux_outStep_frames (W st sp : ℕ) (inC : ℤ) :
    ∀ (fuel len : ℕ) (s : WState),
      (psAux W st sp inC fuel len s).outStepCount - s.outStepCount
        = ((psAux W st sp inC fuel len s).frames : ℤ) - (s.frames : ℤ) := by
  intro fuel
  induction fuel with
  | zero =>
      intro len s
      simp [psAux]
  | succ fuel ih =>
      intro len s
      cases len with
      | zero => simp [psAux]
      | succ len =>
          simp only [psAux]
          by_cases hgate : s.outStepCount * (st : ℤ) < inC
          · rw [if_pos hgate]
            by_cases havail : min (len + 1) (W - s.inWavePos) = 0
            · rw [if_pos havail]
              simp
            · rw [if_neg havail]
              by_cases hpos : s.inWavePos + min (len + 1) (W - s.inWavePos) = W
              · rw [if_pos hpos]
                have hrec := ih (len + 1 - min (len + 1) (W - s.inWavePos))
                  { outStepCount := s.outStepCount + 1
                    inWavePos := s.inWavePos + min (len + 1) (W - s.inWavePos) - st
                    frames := s.frames + 1
                    emitted :=
                      if -((sp : ℤ) - 1) ≤ s.outStepCount ∧ 0 ≤ s.outStepCount
                      then s.emitted ++ [s.outStepCount]
                      else s.emitted }
                simp only at hrec ⊢
                push_cast at hrec ⊢
                omega
              · rw [if_neg hpos]
                have hrec := ih (len + 1 - min (len + 1) (W - s.inWavePos))
                  { s with inWavePos := s.inWavePos + min (len + 1) (W - s.inWavePos) }
                simp only at hrec ⊢
                omega
          · rw [if_neg hgate]
            simp

theorem psAux_emitted (W st sp : ℕ) (inC : ℤ) :
    ∀ (fuel len : ℕ) (s : WState) (e : ℤ),
      e ∈ (psAux W st sp inC fuel len s).emitted → e ∈ s.emitted ∨ 0 ≤ e := by
  intro fuel
  induction fuel with
  | zero =>
      intro len s e he
      simp only [psAux] at he
      exact Or.inl he
  | succ fuel ih =>
      intro len s e he
      cases len with
      | zero =>
          simp only [psAux] at he
          exact Or.inl he
      | succ len =>
          simp only [psAux] at he
          by_cases hgate : s.outStepCount * (st : ℤ) < inC
          · rw [if_pos hgate] at he
            by_cases havail : min (len + 1) (W - s.inWavePos) = 0
            · rw [if_pos havail] at he
              exact Or.inl he
            · rw [if_neg havail] at he
              by_cases hpos : s.inWavePos + min (len + 1) (W - s.inWavePos) = W
              · rw [if_pos hpos] at he
                rcases ih _ _ e he with hmem | hnn
                · simp only at hmem
                  by_cases hemit :
                      -((sp : ℤ) - 1) ≤ s.outStepCount ∧ 0 ≤ s.outStepCount
                  · rw [if_pos hemit] at hmem
                    rcases List.mem_append.mp hmem with h | h
                    · exact Or.inl h
                    · right
                      rcases List.mem_singleton.mp h with rfl
                      exact hemit.2
                  · rw [if_neg hemit] at hmem
                    exact Or.inl hmem
                · exact Or.inr hnn
              · rw [if_neg hpos] at he
                rcases ih _ _ e he with hmem | hnn
                · exact Or.inl hmem
                · exact Or.inr hnn
          · rw [if_neg hgate] at he
            exact Or.inl he

/-- C6: `mOutStepCount` starts at `-(mHistoryLen-1) - (mStepsPerWindow-1)`
after `StartNewTrack`, is incremented by exactly 1 per completed analysis
frame inside `ProcessSamples` (it moves in lockstep with the frame count),
and output samples are appended only at frames where `mOutStepCount ≥ 0`. -/
theorem c6_out_step_discipline :
    (∀ histLen stepsPerWindow windowSize stepSize : ℕ,
        (startNewTrackState histLen stepsPerWindow windowSize stepSize).outStepCount
            = -((histLen : ℤ) - 1) - ((stepsPerWindow : ℤ) - 1) ∧
        (startNewTrackState histLen stepsPerWindow windowSize stepSize).frames = 0 ∧
        (startNewTrackState histLen stepsPerWindow windowSize stepSize).emitted
            = []) ∧
    (∀ (W st sp : ℕ) (inC : ℤ) (len : ℕ) (s : WState),
        (processSamples W st sp inC len s).outStepCount - s.outStepCount
          = ((processSamples W st sp inC len s).frames : ℤ) - (s.frames : ℤ)) ∧
    (∀ (W st sp : ℕ) (inC : ℤ) (len : ℕ) (s : WState) (e : ℤ),
        e ∈ (processSamples W st sp inC len s).emitted → e ∈ s.emitted ∨ 0 ≤ e) := by
  refine ⟨fun _ _ _ _ => ⟨rfl, rfl, rfl⟩, ?_, ?_⟩
  · intro W st sp inC len s
    exact psAux_outStep_frames W st sp inC len len s
  · intro W st sp inC len s e he
    exact psAux_emitted W st sp inC len len s e he

/-- Witness for C6: a run that emits samples, all at nonnegative
`mOutStepCount`. -/
theorem c6_witness :
    ((0 : ℤ) ∈ (processSamples 1 1 1 3 3 ⟨0, 0, 0, []⟩).emitted) ∧
    ((0 : ℤ) ∈ (⟨0, 0, 0, []⟩ : WState).emitted ∨ (0 : ℤ) ≤ 0) :=
  ⟨by decide,
   c6_out_step_discipline.2.2 1 1 1 3 3 ⟨0, 0, 0, []⟩ 0 (by decide)⟩

theorem psAux_gate_closed (W st sp : ℕ) (inC : ℤ) (fuel len : ℕ) (s : WState)
    (h : ¬ s.outStepCount * (st : ℤ) < inC) :
    psAux W st sp inC fuel len s = s := by
  cases fuel with
  | zero => rfl
  | succ f =>
      cases len with
      | zero => rfl
      | succ l =>
          simp only [psAux]
          rw [if_neg h]

theorem psAux_partial_fill (W st sp : ℕ) (inC : ℤ) (fuel len : ℕ) (o : ℤ)
    (p fr : ℕ) (em : List ℤ)
    (hfuel : len ≤ fuel) (hlen : 1 ≤ len) (hlt : p + len < W)
    (hgate : o * (st : ℤ) < inC) :
    psAux W st sp inC fuel len ⟨o, p, fr, em⟩ = ⟨o, p + len, fr, em⟩ := by
  obtain ⟨f, rfl⟩ : ∃ f, fuel = f + 1 := ⟨fuel - 1, by omega⟩
  obtain ⟨l, rfl⟩ : ∃ l, len = l + 1 := ⟨len - 1, by omega⟩
  simp only [psAux]
  rw [if_pos hgate]
  have havail : min (l + 1) (W - p) = l + 1 := by omega
  rw [havail]
  rw [if_neg (by omega)]
  rw [if_neg (by omega)]
  rw [Nat.sub_self, psAux_len_zero]

/-- One iteration of the `FinishTrack` flush loop from any reachable window
position (`mWindowSize - mStepSize ≤ mInWavePos < mWindowSize`; unaligned
input leaves a residual above `mWindowSize - mStepSize`): feeding one
`mStepSize` zero block fills the window, completes exactly one frame, and
refills the residual — unless the loop gate has just closed, in which case
the leftover zeros stay unconsumed at position `mWindowSize - mStepSize`. -/
theorem processSamples_one_block (W st sp : ℕ) (inC : ℤ) (s : WState)
    (hlo : W - st ≤ s.inWavePos) (hhi : s.inWavePos < W)
    (h1 : 1 ≤ st) (hW : st ≤ W)
    (hgate : s.outStepCount * (st : ℤ) < inC) :
    processSamples W st sp inC st s
      = { outStepCount := s.outStepCount + 1
          inWavePos :=
            if (s.outStepCount + 1) * (st : ℤ) < inC then s.inWavePos else W - st
          frames := s.frames + 1
          emitted :=
            if -((sp : ℤ) - 1) ≤ s.outStepCount ∧ 0 ≤ s.outStepCount
            then s.emitted ++ [s.outStepCount]
            else s.emitted } := by
  obtain ⟨m, rfl⟩ : ∃ m, st = m + 1 := ⟨st - 1, by omega⟩
  unfold processSamples
  simp only [psAux]
  rw [if_pos hgate]
  have havail : min (m + 1) (W - s.inWavePos) = W - s.inWavePos := by omega
  rw [havail]
  rw [if_neg (show ¬(W - s.inWavePos = 0) from by omega)]
  have hps : s.inWavePos + (W - s.inWavePos) = W := by omega
  rw [hps, if_pos rfl]
  by_cases hr0 : m + 1 - (W - s.inWavePos) = 0
  · rw [hr0, psAux_len_zero]
    have hpe : s.inWavePos = W - (m + 1) := by omega
    rw [hpe, ite_self]
  · by_cases hg2 : (s.outStepCount + 1) * (((m + 1 : ℕ)) : ℤ) < inC
    · rw [psAux_partial_fill W (m + 1) sp inC m (m + 1 - (W - s.inWavePos))
        (s.outStepCount + 1) (W - (m + 1)) (s.frames + 1) _
        (by omega) (by omega) (by omega) hg2]
      rw [if_pos hg2]
      have hback : W - (m + 1) + (m + 1 - (W - s.inWavePos)) = s.inWavePos := by
        omega
      rw [hback]
    · rw [psAux_gate_closed W (m + 1) sp inC m (m + 1 - (W - s.inWavePos)) _ hg2]
      rw [if_neg hg2]

/-- C10: from any reachable worker state after feeding any input (window
position anywhere in `[mWindowSize - mStepSize, mWindowSize)` — unaligned
input lengths leave `mInWavePos = mWindowSize - mStepSize +
(mInSampleCount mod mStepSize)` — and at most one step of excess output),
the `FinishTrack` flush loop terminates: each iteration feeds one
`mStepSize` zero block, completes exactly one analysis frame and
increments `mOutStepCount` by exactly 1, so after finitely many iterations
`mOutStepCount * mStepSize < mInSampleCount` fails; on exit
`mOutStepCount * mStepSize ≥ mInSampleCount` with an excess of less than
one `mStepSize`. -/
theorem c10_finish_track_terminates (W st sp : ℕ) (inC : ℤ) (s : WState)
    (hlo : W - st ≤ s.inWavePos) (hhi : s.inWavePos < W)
    (h1 : 1 ≤ st) (hW : st ≤ W)
    (hreach : s.outStepCount * (st : ℤ) < inC + st) :
    ∃ n : ℕ,
      (∀ fuel : ℕ, n ≤ fuel →
        finishTrackF W st sp inC fuel s = flushIter W st sp inC n s) ∧
      inC ≤ (flushIter W st sp inC n s).outStepCount * (st : ℤ) ∧
      (flushIter W st sp inC n s).outStepCount * (st : ℤ) < inC + st ∧
      (flushIter W st sp inC n s).outStepCount = s.outStepCount + n ∧
      (flushIter W st sp inC n s).frames = s.frames + n := by
  have main : ∀ (M : ℕ) (s : WState),
      W - st ≤ s.inWavePos → s.inWavePos < W →
      s.outStepCount * (st : ℤ) < inC + st →
      (inC - s.outStepCount * (st : ℤ)).toNat = M →
      ∃ n : ℕ,
        (∀ fuel : ℕ, n ≤ fuel →
          finishTrackF W st sp inC fuel s = flushIter W st sp inC n s) ∧
        inC ≤ (flushIter W st sp inC n s).outStepCount * (st : ℤ) ∧
        (flushIter W st sp inC n s).outStepCount * (st : ℤ) < inC + st ∧
        (flushIter W st sp inC n s).outStepCount = s.outStepCount + n ∧
        (flushIter W st sp inC n s).frames = s.frames + n := by
    intro M
    induction M using Nat.strong_induction_on with
    | _ M ih =>
      intro s hlo2 hhi2 hreach hM
      by_cases hgate : s.outStepCount * (st : ℤ) < inC
      · have hs2 := processSamples_one_block W st sp inC s hlo2 hhi2 h1 hW hgate
        set s2 := processSamples W st sp inC st s with hs2def
        have e1 : s2.outStepCount = s.outStepCount + 1 := by rw [hs2]
        have e2 : s2.frames = s.frames + 1 := by rw [hs2]
        have e3lo : W - st ≤ s2.inWavePos := by
          rw [hs2]
          show W - st ≤ if (s.outStepCount + 1) * (st : ℤ) < inC
            then s.inWavePos else W - st
          split_ifs <;> omega
        have e3hi : s2.inWavePos < W := by
          rw [hs2]
          show (if (s.outStepCount + 1) * (st : ℤ) < inC
            then s.inWavePos else W - st) < W
          split_ifs <;> omega
        have hM2 : (inC - s2.outStepCount * (st : ℤ)).toNat < M := by
          rw [e1, add_one_mul]
          have hst : (1 : ℤ) ≤ (st : ℤ) := by exact_mod_cast h1
          omega
        have hreach2 : s2.outStepCount * (st : ℤ) < inC + st := by
          rw [e1, add_one_mul]
          omega
        obtain ⟨n2, hfuel2, hbound2lo, hbound2hi, hout2, hfr2⟩ :=
          ih _ hM2 s2 e3lo e3hi hreach2 rfl
        refine ⟨n2 + 1, ?_, ?_, ?_, ?_, ?_⟩
        · intro fuel hfuel
          obtain ⟨f, rfl⟩ : ∃ f, fuel = f + 1 := ⟨fuel - 1, by omega⟩
          show finishTrackF W st sp inC (f + 1) s = flushIter W st sp inC (n2 + 1) s
          rw [finishTrackF, if_pos hgate, flushIter]
          exact hfuel2 f (by omega)
        · rw [flushIter, ← hs2def]
          exact hbound2lo
        · rw [flushIter, ← hs2def]
          exact hbound2hi
        · rw [flushIter, ← hs2def, hout2, e1]
          omega
        · rw [flushIter, ← hs2def, hfr2, e2]
          omega
      · refine ⟨0, ?_, by simpa [flushIter] using not_lt.mp hgate,
          by simpa [flushIter] using hreach, by simp [flushIter], by simp [flushIter]⟩
        intro fuel _
        cases fuel with
        | zero => rfl
        | succ f =>
            show finishTrackF W st sp inC (f + 1) s = flushIter W st sp inC 0 s
            rw [finishTrackF, if_neg hgate, flushIter]
  exact main _ s hlo hhi hreach rfl

/-- Witness for C10 from a concrete unaligned state: window size 4, step
size 2, three samples fed, so the flush loop is entered at
`mInWavePos = 3`, not at `mWindowSize - mStepSize = 2`. -/
theorem c10_witness :
    ((4 : ℕ) - 2 ≤ (⟨0, 3, 0, []⟩ : WState).inWavePos ∧
      (⟨0, 3, 0, []⟩ : WState).inWavePos < 4 ∧
      (1 : ℕ) ≤ 2 ∧ (2 : ℕ) ≤ 4 ∧
      (⟨0, 3, 0, []⟩ : WState).outStepCount * ((2 : ℕ) : ℤ) < 3 + 2) ∧
    (∃ n : ℕ,
      (∀ fuel : ℕ, n ≤ fuel →
        finishTrackF 4 2 2 3 fuel ⟨0, 3, 0, []⟩ = flushIter 4 2 2 3 n ⟨0, 3, 0, []⟩) ∧
      (3 : ℤ) ≤ (flushIter 4 2 2 3 n ⟨0, 3, 0, []⟩).outStepCount * ((2 : ℕ) : ℤ) ∧
      (flushIter 4 2 2 3 n ⟨0, 3, 0, []⟩).outStepCount * ((2 : ℕ) : ℤ) < 3 + 2 ∧
      (flushIter 4 2 2 3 n ⟨0, 3, 0, []⟩).outStepCount
          = (⟨0, 3, 0, []⟩ : WState).outStepCount + n ∧
      (flushIter 4 2 2 3 n ⟨0, 3, 0, []⟩).frames = (⟨0, 3, 0, []⟩ : WState).frames + n) :=
  ⟨⟨by decide, by decide, by decide, by decide, by decide⟩,
   c10_finish_track_terminates 4 2 2 3 ⟨0, 3, 0, []⟩ (by decide) (by decide)
     (by decide) (by decide) (by decide)⟩

end NoiseReduction
